import Mathlib

set_option maxRecDepth 40000

/-!
Verification of the MacRoman encoder crate.

The source program converts a UTF-8 string into a lazy sequence of
`(byte offset, byte length, Result<u8, char>)` triples by repeatedly
binary-searching a sorted static table `KNOWN_SEQUENCES` for the entry at or
immediately below the remaining text's sort position, emitting that entry's
code when it is a literal prefix of the remaining text and otherwise emitting
the first scalar value as unmappable.

Shallow embedding conventions:
* A well-formed UTF-8 string is modelled as its list of Unicode scalar values
  (`List Nat`).  Byte offsets and byte lengths are recovered through the UTF-8
  encoding function `utf8Encode`.
* The source's `&str` comparison (`prefix.cmp(&self.rem)`) compares UTF-8
  bytes lexicographically; here table entries are compared to the remaining
  text with `lexCmp` on scalar-value lists.  The theorem
  `lexCmp_utf8Encode_agrees` proves that for valid scalar values the byte-level
  and the scalar-value-level lexicographic orders coincide, so this modelling
  step is faithful.
* `str::strip_prefix` on well-formed strings with a whole-scalar-value prefix
  corresponds to stripping a prefix of the scalar-value list.
* Rust's `slice::binary_search_by` is ported literally as `bsGo`.
-/

/-- Outcome of one scan step: `Ok(code)` or `Err(codepoint)` in the source. -/
inductive ScanOutcome where
  | mapped (code : Nat) : ScanOutcome
  | unmappable (codepoint : Nat) : ScanOutcome
  deriving DecidableEq, Repr

/-- One element of the iterator: starting byte offset, consumed byte length,
and the outcome, i.e. the source's `(usize, usize, Result<u8, char>)`. -/
structure ScanStep where
  pos : Nat
  len : Nat
  out : ScanOutcome
  deriving DecidableEq, Repr

/-- Lexicographic comparison of lists of naturals; models both `str::cmp`
(on UTF-8 byte lists) and the induced order on scalar-value lists. -/
def lexCmp : List Nat → List Nat → Ordering
  | [], [] => Ordering.eq
  | [], _ :: _ => Ordering.lt
  | _ :: _, [] => Ordering.gt
  | a :: as, b :: bs =>
    if a < b then Ordering.lt
    else if b < a then Ordering.gt
    else lexCmp as bs

/-- UTF-8 encoding of one scalar value, as in `char::encode_utf8`. -/
def utf8EncodeChar (c : Nat) : List Nat :=
  if c < 0x80 then [c]
  else if c < 0x800 then [0xC0 + c / 64, 0x80 + c % 64]
  else if c < 0x10000 then [0xE0 + c / 4096, 0x80 + c / 64 % 64, 0x80 + c % 64]
  else [0xF0 + c / 262144, 0x80 + c / 4096 % 64, 0x80 + c / 64 % 64, 0x80 + c % 64]

/-- UTF-8 encoding of a scalar-value sequence: the byte content of the
corresponding `&str`. -/
def utf8Encode (s : List Nat) : List Nat :=
  (s.map utf8EncodeChar).flatten

/-- Byte length of one scalar value (`char::len_utf8`). -/
def utf8Len (c : Nat) : Nat :=
  (utf8EncodeChar c).length

/-- Byte length of a scalar-value sequence (`str::len`). -/
def strByteLen (s : List Nat) : Nat :=
  (utf8Encode s).length

/-- The static table from the source, transcribed entry for entry: each pair is
the entry's source sequence (as scalar values) and its MacRoman code. -/
def KNOWN_SEQUENCES : List (List Nat × Nat) := [
  ([0x0000], 0),
  ([0x0001], 1),
  ([0x0002], 2),
  ([0x0003], 3),
  ([0x0004], 4),
  ([0x0005], 5),
  ([0x0006], 6),
  ([0x0007], 7),
  ([0x0008], 8),
  ([0x0009], 9),
  ([0x000A], 10),
  ([0x000B], 11),
  ([0x000C], 12),
  ([0x000D], 13),
  ([0x000E], 14),
  ([0x000F], 15),
  ([0x0010], 16),
  ([0x0011], 17),
  ([0x0012], 18),
  ([0x0013], 19),
  ([0x0014], 20),
  ([0x0015], 21),
  ([0x0016], 22),
  ([0x0017], 23),
  ([0x0018], 24),
  ([0x0019], 25),
  ([0x001A], 26),
  ([0x001B], 27),
  ([0x001C], 28),
  ([0x001D], 29),
  ([0x001E], 30),
  ([0x001F], 31),
  ([0x0020], 32),
  ([0x0021], 33),
  ([0x0022], 34),
  ([0x0023], 35),
  ([0x0024], 36),
  ([0x0025], 37),
  ([0x0026], 38),
  ([0x0027], 39),
  ([0x0028], 40),
  ([0x0029], 41),
  ([0x002A], 42),
  ([0x002B], 43),
  ([0x002C], 44),
  ([0x002D], 45),
  ([0x002E], 46),
  ([0x002F], 47),
  ([0x0030], 48),
  ([0x0031], 49),
  ([0x0032], 50),
  ([0x0033], 51),
  ([0x0034], 52),
  ([0x0035], 53),
  ([0x0036], 54),
  ([0x0037], 55),
  ([0x0038], 56),
  ([0x0039], 57),
  ([0x003A], 58),
  ([0x003B], 59),
  ([0x003C], 60),
  ([0x003D], 61),
  ([0x003E], 62),
  ([0x003F], 63),
  ([0x0040], 64),
  ([0x0041], 65),
  ([0x0041, 0x0300], 203),
  ([0x0041, 0x0301], 231),
  ([0x0041, 0x0302], 229),
  ([0x0041, 0x0303], 204),
  ([0x0041, 0x0308], 128),
  ([0x0041, 0x030A], 129),
  ([0x0042], 66),
  ([0x0043], 67),
  ([0x0043, 0x0327], 130),
  ([0x0044], 68),
  ([0x0045], 69),
  ([0x0045, 0x0300], 233),
  ([0x0045, 0x0301], 131),
  ([0x0045, 0x0302], 230),
  ([0x0045, 0x0308], 232),
  ([0x0046], 70),
  ([0x0047], 71),
  ([0x0048], 72),
  ([0x0049], 73),
  ([0x0049, 0x0300], 237),
  ([0x0049, 0x0301], 234),
  ([0x0049, 0x0302], 235),
  ([0x0049, 0x0308], 236),
  ([0x004A], 74),
  ([0x004B], 75),
  ([0x004C], 76),
  ([0x004D], 77),
  ([0x004E], 78),
  ([0x004E, 0x0303], 132),
  ([0x004F], 79),
  ([0x004F, 0x0300], 241),
  ([0x004F, 0x0301], 238),
  ([0x004F, 0x0302], 239),
  ([0x004F, 0x0303], 205),
  ([0x004F, 0x0308], 133),
  ([0x0050], 80),
  ([0x0051], 81),
  ([0x0052], 82),
  ([0x0053], 83),
  ([0x0054], 84),
  ([0x0055], 85),
  ([0x0055, 0x0300], 244),
  ([0x0055, 0x0301], 242),
  ([0x0055, 0x0302], 243),
  ([0x0055, 0x0308], 134),
  ([0x0056], 86),
  ([0x0057], 87),
  ([0x0058], 88),
  ([0x0059], 89),
  ([0x0059, 0x0308], 217),
  ([0x005A], 90),
  ([0x005B], 91),
  ([0x005C], 92),
  ([0x005D], 93),
  ([0x005E], 94),
  ([0x005F], 95),
  ([0x0060], 96),
  ([0x0061], 97),
  ([0x0061, 0x0300], 136),
  ([0x0061, 0x0301], 135),
  ([0x0061, 0x0302], 137),
  ([0x0061, 0x0303], 139),
  ([0x0061, 0x0308], 138),
  ([0x0061, 0x030A], 140),
  ([0x0062], 98),
  ([0x0063], 99),
  ([0x0063, 0x0327], 141),
  ([0x0064], 100),
  ([0x0065], 101),
  ([0x0065, 0x0300], 143),
  ([0x0065, 0x0301], 142),
  ([0x0065, 0x0302], 144),
  ([0x0065, 0x0308], 145),
  ([0x0066], 102),
  ([0x0067], 103),
  ([0x0068], 104),
  ([0x0069], 105),
  ([0x0069, 0x0300], 147),
  ([0x0069, 0x0301], 146),
  ([0x0069, 0x0302], 148),
  ([0x0069, 0x0308], 149),
  ([0x006A], 106),
  ([0x006B], 107),
  ([0x006C], 108),
  ([0x006D], 109),
  ([0x006E], 110),
  ([0x006E, 0x0303], 150),
  ([0x006F], 111),
  ([0x006F, 0x0300], 152),
  ([0x006F, 0x0301], 151),
  ([0x006F, 0x0302], 153),
  ([0x006F, 0x0303], 155),
  ([0x006F, 0x0308], 154),
  ([0x0070], 112),
  ([0x0071], 113),
  ([0x0072], 114),
  ([0x0073], 115),
  ([0x0074], 116),
  ([0x0075], 117),
  ([0x0075, 0x0300], 157),
  ([0x0075, 0x0301], 156),
  ([0x0075, 0x0302], 158),
  ([0x0075, 0x0308], 159),
  ([0x0076], 118),
  ([0x0077], 119),
  ([0x0078], 120),
  ([0x0079], 121),
  ([0x0079, 0x0308], 216),
  ([0x007A], 122),
  ([0x007B], 123),
  ([0x007C], 124),
  ([0x007D], 125),
  ([0x007E], 126),
  ([0x007F], 127),
  ([0x00A0], 202),
  ([0x00A1], 193),
  ([0x00A2], 162),
  ([0x00A3], 163),
  ([0x00A4], 219),
  ([0x00A5], 180),
  ([0x00A7], 164),
  ([0x00A8], 172),
  ([0x00A9], 169),
  ([0x00AA], 187),
  ([0x00AB], 199),
  ([0x00AC], 194),
  ([0x00AE], 168),
  ([0x00AF], 248),
  ([0x00B0], 161),
  ([0x00B1], 177),
  ([0x00B4], 171),
  ([0x00B5], 181),
  ([0x00B6], 166),
  ([0x00B7], 225),
  ([0x00B8], 252),
  ([0x00BA], 188),
  ([0x00BB], 200),
  ([0x00BF], 192),
  ([0x00C0], 203),
  ([0x00C1], 231),
  ([0x00C2], 229),
  ([0x00C3], 204),
  ([0x00C4], 128),
  ([0x00C5], 129),
  ([0x00C6], 174),
  ([0x00C7], 130),
  ([0x00C8], 233),
  ([0x00C9], 131),
  ([0x00CA], 230),
  ([0x00CB], 232),
  ([0x00CC], 237),
  ([0x00CD], 234),
  ([0x00CE], 235),
  ([0x00CF], 236),
  ([0x00D1], 132),
  ([0x00D2], 241),
  ([0x00D3], 238),
  ([0x00D4], 239),
  ([0x00D5], 205),
  ([0x00D6], 133),
  ([0x00D8], 175),
  ([0x00D9], 244),
  ([0x00DA], 242),
  ([0x00DB], 243),
  ([0x00DC], 134),
  ([0x00DF], 167),
  ([0x00E0], 136),
  ([0x00E1], 135),
  ([0x00E2], 137),
  ([0x00E3], 139),
  ([0x00E4], 138),
  ([0x00E5], 140),
  ([0x00E6], 190),
  ([0x00E7], 141),
  ([0x00E8], 143),
  ([0x00E9], 142),
  ([0x00EA], 144),
  ([0x00EB], 145),
  ([0x00EC], 147),
  ([0x00ED], 146),
  ([0x00EE], 148),
  ([0x00EF], 149),
  ([0x00F1], 150),
  ([0x00F2], 152),
  ([0x00F3], 151),
  ([0x00F4], 153),
  ([0x00F5], 155),
  ([0x00F6], 154),
  ([0x00F7], 214),
  ([0x00F8], 191),
  ([0x00F9], 157),
  ([0x00FA], 156),
  ([0x00FB], 158),
  ([0x00FC], 159),
  ([0x00FF], 216),
  ([0x0131], 245),
  ([0x0152], 206),
  ([0x0153], 207),
  ([0x0178], 217),
  ([0x0192], 196),
  ([0x02C6], 246),
  ([0x02C7], 255),
  ([0x02D8], 249),
  ([0x02D9], 250),
  ([0x02DA], 251),
  ([0x02DB], 254),
  ([0x02DC], 247),
  ([0x02DD], 253),
  ([0x03A9], 189),
  ([0x03C0], 185),
  ([0x2013], 208),
  ([0x2014], 209),
  ([0x2018], 212),
  ([0x2019], 213),
  ([0x201A], 226),
  ([0x201C], 210),
  ([0x201D], 211),
  ([0x201E], 227),
  ([0x2020], 160),
  ([0x2021], 224),
  ([0x2022], 165),
  ([0x2026], 201),
  ([0x2030], 228),
  ([0x2039], 220),
  ([0x203A], 221),
  ([0x2044], 218),
  ([0x20AC], 219),
  ([0x2122], 170),
  ([0x2126], 189),
  ([0x2202], 182),
  ([0x2206], 198),
  ([0x220F], 184),
  ([0x2211], 183),
  ([0x221A], 195),
  ([0x221E], 176),
  ([0x222B], 186),
  ([0x2248], 197),
  ([0x2260], 173),
  ([0x2264], 178),
  ([0x2265], 179),
  ([0x25CA], 215),
  ([0xF8FF], 240),
  ([0xFB01], 222),
  ([0xFB02], 223)
]

/-- The source sequence stored at index `i` of the table (indexing as in the
source's `KNOWN_SEQUENCES[best]`; out-of-range defaults never occur). -/
def keyAt (i : Nat) : List Nat :=
  (KNOWN_SEQUENCES.getD i ([], 0)).1

/-- Literal port of Rust's `slice::binary_search_by` specialised to the table,
with comparator `prefix.cmp(&rem)`: `.ok i` when entry `i` compares equal,
otherwise `.error` of the insertion position. -/
def bsGo (rem : List Nat) (left right : Nat) : Except Nat Nat :=
  if h : left < right then
    let mid := left + (right - left) / 2
    match lexCmp (keyAt mid) rem with
    | Ordering.lt => bsGo rem (mid + 1) right
    | Ordering.gt => bsGo rem left mid
    | Ordering.eq => Except.ok mid
  else
    Except.error left
  termination_by right - left
  decreasing_by
    · omega
    · omega

/-- Models `KNOWN_SEQUENCES.binary_search_by(|(prefix, _)| prefix.cmp(&self.rem))`. -/
def binarySearch (rem : List Nat) : Except Nat Nat :=
  bsGo rem 0 KNOWN_SEQUENCES.length

/-- The candidate index: `Ok(x) => x, Err(x) => x.saturating_sub(1)`. -/
def bestIndex (rem : List Nat) : Nat :=
  match binarySearch rem with
  | Except.ok x => x
  | Except.error x => x - 1

namespace MacRomanEncoder

/-- One step of the iterator (`MacRomanEncoder::next`).  State is the pair
`(pos, rem)`; the result carries the yielded triple and the next state.
In the fallback branch the source computes the consumed byte length as the
byte index of the second scalar value, or `rem.len()` when only one scalar
value remains; both equal `utf8Len c` for `rem = c :: rest`. -/
def next (pos : Nat) (rem : List Nat) : Option (ScanStep × Nat × List Nat) :=
  match rem with
  | [] => none
  | c :: rest =>
    let best := bestIndex (c :: rest)
    let mapped :=
      if h : best < KNOWN_SEQUENCES.length then
        match KNOWN_SEQUENCES.get ⟨best, h⟩ with
        | (sequence, code) =>
          if sequence.isPrefixOf (c :: rest) then
            some (⟨pos, strByteLen sequence, ScanOutcome.mapped code⟩,
                  pos + strByteLen sequence, (c :: rest).drop sequence.length)
          else none
      else none
    match mapped with
    | some r => some r
    | none =>
      some (⟨pos, utf8Len c, ScanOutcome.unmappable c⟩, pos + utf8Len c, rest)

end MacRomanEncoder

/-- Every table entry's source sequence is non-empty. -/
theorem table_keys_ne_nil : ∀ e ∈ KNOWN_SEQUENCES, e.1 ≠ [] := by decide

/-- A successful step strictly shrinks the remaining text (in scalar values). -/
theorem next_rem_lt {pos : Nat} {rem : List Nat} {s : ScanStep} {pos' : Nat}
    {rem' : List Nat} (h : MacRomanEncoder.next pos rem = some (s, pos', rem')) :
    rem'.length < rem.length := by
  cases rem with
  | nil => simp [MacRomanEncoder.next] at h
  | cons c rest =>
    rw [MacRomanEncoder.next] at h
    split at h
    case h_1 r heq =>
      obtain ⟨r1, r2, r3⟩ := r
      simp only [Option.some.injEq, Prod.mk.injEq] at h
      obtain ⟨-, -, hrem⟩ := h
      split at heq
      case isTrue hb =>
        split at heq
        rename_i sequence code hget
        split at heq
        case isTrue hp =>
          simp only [Option.some.injEq, Prod.mk.injEq] at heq
          obtain ⟨-, -, hdrop⟩ := heq
          have hmem : (sequence, code) ∈ KNOWN_SEQUENCES :=
            hget ▸ List.get_mem KNOWN_SEQUENCES _ hb
          have hne : sequence ≠ [] := table_keys_ne_nil _ hmem
          have hseqlen : sequence.length ≠ 0 := by
            simpa [List.length_eq_zero] using hne
          rw [← hrem, ← hdrop, List.length_drop]
          simp only [List.length_cons]
          omega
        case isFalse => exact absurd heq (by simp)
      case isFalse => exact absurd heq (by simp)
    case h_2 heq =>
      simp only [Option.some.injEq, Prod.mk.injEq] at h
      obtain ⟨-, -, hrem⟩ := h
      simp [← hrem]

/-- Runs the iterator to exhaustion from a given state, collecting the steps. -/
def scanFrom (pos : Nat) (rem : List Nat) : List ScanStep :=
  match h : MacRomanEncoder.next pos rem with
  | none => []
  | some (s, pos', rem') => s :: scanFrom pos' rem'
  termination_by rem.length
  decreasing_by exact next_rem_lt h

/-- The public entry point: the full sequence of scan steps for an input. -/
def encode (input : List Nat) : List ScanStep :=
  scanFrom 0 input

/-! ### Order toolkit for `lexCmp` -/

theorem lexCmp_self : ∀ a : List Nat, lexCmp a a = Ordering.eq := by
  intro a
  induction a with
  | nil => rfl
  | cons x xs ih => simp [lexCmp, ih]

theorem lexCmp_eq_iff : ∀ {a b : List Nat}, lexCmp a b = Ordering.eq ↔ a = b := by
  intro a
  induction a with
  | nil => intro b; cases b <;> simp [lexCmp]
  | cons x xs ih =>
    intro b
    cases b with
    | nil => simp [lexCmp]
    | cons y ys =>
      simp only [lexCmp]
      split_ifs with h1 h2
      · exact iff_of_false (by decide)
          (by simp only [List.cons.injEq, not_and]; intro hxy _; omega)
      · exact iff_of_false (by decide)
          (by simp only [List.cons.injEq, not_and]; intro hxy _; omega)
      · have hxy : x = y := by omega
        simp [hxy, ih]

theorem lexCmp_lt_iff_gt : ∀ {a b : List Nat},
    lexCmp a b = Ordering.lt ↔ lexCmp b a = Ordering.gt := by
  intro a
  induction a with
  | nil => intro b; cases b <;> simp [lexCmp]
  | cons x xs ih =>
    intro b
    cases b with
    | nil => simp [lexCmp]
    | cons y ys =>
      rcases Nat.lt_trichotomy x y with h | h | h
      · simp [lexCmp, h, Nat.lt_asymm h]
      · subst h; simp [lexCmp, Nat.lt_irrefl, ih]
      · simp [lexCmp, h, Nat.lt_asymm h]

theorem lexCmp_lt_trans : ∀ {a b c : List Nat}, lexCmp a b = Ordering.lt →
    lexCmp b c = Ordering.lt → lexCmp a c = Ordering.lt := by
  intro a
  induction a with
  | nil =>
    intro b c hab hbc
    cases c with
    | nil =>
      cases b with
      | nil => simpa using hab
      | cons y ys => simp [lexCmp] at hbc
    | cons z zs => simp [lexCmp]
  | cons x xs ih =>
    intro b c hab hbc
    cases b with
    | nil => simp [lexCmp] at hab
    | cons y ys =>
      cases c with
      | nil => simp [lexCmp] at hbc
      | cons z zs =>
        simp only [lexCmp] at hab hbc ⊢
        split_ifs at hab hbc ⊢ <;>
          first
          | rfl
          | omega
          | exact ih hab hbc
          | simp_all

theorem lexCmp_append_same : ∀ (p a b : List Nat),
    lexCmp (p ++ a) (p ++ b) = lexCmp a b := by
  intro p
  induction p with
  | nil => intro a b; rfl
  | cons x xs ih => intro a b; simp [lexCmp, Nat.lt_irrefl, ih]

theorem lexCmp_ne_gt_of_isPrefix {a b : List Nat} (h : a <+: b) :
    lexCmp a b ≠ Ordering.gt := by
  obtain ⟨t, rfl⟩ := h
  have : lexCmp a (a ++ t) = lexCmp ([] : List Nat) t := by
    have := lexCmp_append_same a [] t
    simpa using this
  rw [this]
  cases t <;> simp [lexCmp]

/-! ### Sortedness of the table -/

/-- Boolean check that adjacent table entries are strictly increasing. -/
def chainLtB : List (List Nat × Nat) → Bool
  | [] => true
  | [_] => true
  | a :: b :: t => (lexCmp a.1 b.1 == Ordering.lt) && chainLtB (b :: t)

theorem table_chainLt : chainLtB KNOWN_SEQUENCES = true := by decide

theorem chainLtB_sorted : ∀ (l : List (List Nat × Nat)), chainLtB l = true →
    ∀ i j, i < j → j < l.length →
    lexCmp (l.getD i ([], 0)).1 (l.getD j ([], 0)).1 = Ordering.lt := by
  intro l
  induction l with
  | nil => intro _ i j _ hj; simp at hj
  | cons a t ih =>
    intro hc i j hij hj
    cases t with
    | nil =>
      simp only [List.length_cons, List.length_nil] at hj
      omega
    | cons b t2 =>
      rw [chainLtB] at hc
      simp only [Bool.and_eq_true, beq_iff_eq, decide_eq_true_eq] at hc
      obtain ⟨hab0, hrest⟩ := hc
      have hab : lexCmp a.1 b.1 = Ordering.lt := by
        cases hx : lexCmp a.1 b.1 <;> rw [hx] at hab0
        case eq => exact absurd hab0 (by decide)
        case gt => exact absurd hab0 (by decide)
      cases i with
      | zero =>
        cases j with
        | zero => omega
        | succ j' =>
          simp only [List.getD_cons_zero, List.getD_cons_succ]
          cases j' with
          | zero => simpa using hab
          | succ j'' =>
            have hj' : j'' + 1 < (b :: t2).length := by
              simpa [List.length_cons] using hj
            have := ih hrest 0 (j'' + 1) (by omega) hj'
            simp only [List.getD_cons_zero] at this
            exact lexCmp_lt_trans hab this
      | succ i' =>
        cases j with
        | zero => omega
        | succ j' =>
          simp only [List.getD_cons_succ]
          exact ih hrest i' j' (by omega) (by simpa [List.length_cons] using hj)

theorem table_sorted : ∀ i j, i < j → j < KNOWN_SEQUENCES.length →
    lexCmp (keyAt i) (keyAt j) = Ordering.lt :=
  fun i j hij hj => chainLtB_sorted KNOWN_SEQUENCES table_chainLt i j hij hj

/-! ### Binary search characterisation -/

theorem keyAt_lt_of_le {rem : List Nat} {j k : Nat} (hjk : j ≤ k)
    (hk : k < KNOWN_SEQUENCES.length)
    (h : lexCmp (keyAt k) rem = Ordering.lt) :
    lexCmp (keyAt j) rem = Ordering.lt := by
  rcases Nat.lt_or_ge j k with hlt | hge
  · exact lexCmp_lt_trans (table_sorted j k hlt hk) h
  · have hjeq : j = k := by omega
    rw [hjeq]; exact h

theorem keyAt_gt_of_ge {rem : List Nat} {j k : Nat} (hjk : j ≤ k)
    (hk : k < KNOWN_SEQUENCES.length)
    (h : lexCmp (keyAt j) rem = Ordering.gt) :
    lexCmp (keyAt k) rem = Ordering.gt := by
  rcases Nat.lt_or_ge j k with hlt | hge
  · have h1 : lexCmp rem (keyAt j) = Ordering.lt := lexCmp_lt_iff_gt.mpr h
    have h2 : lexCmp rem (keyAt k) = Ordering.lt :=
      lexCmp_lt_trans h1 (table_sorted j k hlt hk)
    exact lexCmp_lt_iff_gt.mp h2
  · have hjeq : j = k := by omega
    rw [← hjeq]; exact h

theorem keyAt_gt_of_eq_lt {rem : List Nat} {j k : Nat} (hjk : j < k)
    (hk : k < KNOWN_SEQUENCES.length)
    (h : lexCmp (keyAt j) rem = Ordering.eq) :
    lexCmp (keyAt k) rem = Ordering.gt := by
  have hkey : keyAt j = rem := lexCmp_eq_iff.mp h
  have h2 : lexCmp rem (keyAt k) = Ordering.lt := hkey ▸ table_sorted j k hjk hk
  exact lexCmp_lt_iff_gt.mp h2

theorem keyAt_lt_of_le_eq {rem : List Nat} {j k : Nat} (hjk : j < k)
    (hk : k < KNOWN_SEQUENCES.length)
    (h : lexCmp (keyAt k) rem = Ordering.eq) :
    lexCmp (keyAt j) rem = Ordering.lt := by
  have hkey : keyAt k = rem := lexCmp_eq_iff.mp h
  exact hkey ▸ table_sorted j k hjk hk

/-- Loop invariant of the ported `binary_search_by`: the result is an exact hit
or the insertion position, with every earlier key below and every later key
above the probe. -/
theorem bsGo_spec (rem : List Nat) (left right : Nat)
    (hb : left ≤ right)
    (hr : right ≤ KNOWN_SEQUENCES.length)
    (hl : ∀ j, j < left → lexCmp (keyAt j) rem = Ordering.lt)
    (hh : ∀ j, right ≤ j → j < KNOWN_SEQUENCES.length →
      lexCmp (keyAt j) rem = Ordering.gt) :
    (∀ i, bsGo rem left right = Except.ok i →
      i < KNOWN_SEQUENCES.length ∧ lexCmp (keyAt i) rem = Ordering.eq) ∧
    (∀ i, bsGo rem left right = Except.error i →
      i ≤ KNOWN_SEQUENCES.length ∧
      (∀ j, j < i → lexCmp (keyAt j) rem = Ordering.lt) ∧
      (∀ j, i ≤ j → j < KNOWN_SEQUENCES.length →
        lexCmp (keyAt j) rem = Ordering.gt)) := by
  rw [bsGo]
  by_cases hlr : left < right
  · rw [dif_pos hlr]
    cases hm : lexCmp (keyAt (left + (right - left) / 2)) rem with
    | lt =>
      simp only [hm]
      exact bsGo_spec rem (left + (right - left) / 2 + 1) right (by omega) hr
        (by
          intro j hj
          exact keyAt_lt_of_le (by omega) (by omega) hm)
        hh
    | gt =>
      simp only [hm]
      exact bsGo_spec rem left (left + (right - left) / 2) (by omega) (by omega) hl
        (by
          intro j hj hjN
          exact keyAt_gt_of_ge (by omega) hjN hm)
    | eq =>
      simp only [hm]
      refine ⟨?_, ?_⟩
      · intro i hi
        injection hi with hmi
        refine ⟨by omega, ?_⟩
        rw [← hmi]
        exact hm
      · intro i hi
        exact Except.noConfusion hi
  · rw [dif_neg hlr]
    refine ⟨?_, ?_⟩
    · intro i hi
      exact Except.noConfusion hi
    · intro i hi
      injection hi with hile
      refine ⟨by omega, ?_, ?_⟩
      · intro j hj
        exact hl j (by omega)
      · intro j hj hjN
        exact hh j (by omega) hjN
  termination_by right - left
  decreasing_by
    · omega
    · omega

theorem table_length_pos : 0 < KNOWN_SEQUENCES.length := by decide

theorem binarySearch_ok {rem : List Nat} {i : Nat}
    (h : binarySearch rem = Except.ok i) :
    i < KNOWN_SEQUENCES.length ∧ keyAt i = rem := by
  have := (bsGo_spec rem 0 KNOWN_SEQUENCES.length (by omega) (by omega)
    (by omega) (by omega)).1 i h
  exact ⟨this.1, lexCmp_eq_iff.mp this.2⟩

theorem binarySearch_error {rem : List Nat} {i : Nat}
    (h : binarySearch rem = Except.error i) :
    i ≤ KNOWN_SEQUENCES.length ∧
    (∀ j, j < i → lexCmp (keyAt j) rem = Ordering.lt) ∧
    (∀ j, i ≤ j → j < KNOWN_SEQUENCES.length →
      lexCmp (keyAt j) rem = Ordering.gt) :=
  (bsGo_spec rem 0 KNOWN_SEQUENCES.length (by omega) (by omega)
    (by omega) (by omega)).2 i h

theorem bestIndex_of_ok {rem : List Nat} {i : Nat}
    (h : binarySearch rem = Except.ok i) : bestIndex rem = i := by
  unfold bestIndex
  rw [h]

theorem bestIndex_of_error {rem : List Nat} {i : Nat}
    (h : binarySearch rem = Except.error i) : bestIndex rem = i - 1 := by
  unfold bestIndex
  rw [h]

/-- The saturating-decrement candidate index is always in bounds. -/
theorem bestIndex_lt (rem : List Nat) :
    bestIndex rem < KNOWN_SEQUENCES.length := by
  cases hbs : binarySearch rem with
  | ok i =>
    rw [bestIndex_of_ok hbs]
    exact (binarySearch_ok hbs).1
  | error i =>
    rw [bestIndex_of_error hbs]
    have := (binarySearch_error hbs).1
    have := table_length_pos
    omega

/-- Whenever some key is at or below the probe in sort order, the candidate's
key is at or below the probe and the candidate is the *greatest* such index. -/
theorem bestIndex_spec {rem : List Nat} {j0 : Nat}
    (hj0 : j0 < KNOWN_SEQUENCES.length)
    (h0 : lexCmp (keyAt j0) rem ≠ Ordering.gt) :
    lexCmp (keyAt (bestIndex rem)) rem ≠ Ordering.gt ∧
    (∀ j, j < KNOWN_SEQUENCES.length → lexCmp (keyAt j) rem ≠ Ordering.gt →
      j ≤ bestIndex rem) := by
  cases hbs : binarySearch rem with
  | ok i =>
    rw [bestIndex_of_ok hbs]
    obtain ⟨hiN, hikey⟩ := binarySearch_ok hbs
    constructor
    · rw [hikey, lexCmp_self]
      decide
    · intro j hjN hj
      by_contra hgt
      have : lexCmp (keyAt j) rem = Ordering.gt := by
        have : lexCmp (keyAt i) rem = Ordering.eq := by
          rw [hikey]; exact lexCmp_self rem
        exact keyAt_gt_of_eq_lt (by omega) hjN this
      exact hj this
  | error i =>
    rw [bestIndex_of_error hbs]
    obtain ⟨hiN, hlo, hhi⟩ := binarySearch_error hbs
    have hipos : 1 ≤ i := by
      by_contra h0i
      have : lexCmp (keyAt j0) rem = Ordering.gt := hhi j0 (by omega) hj0
      exact h0 this
    constructor
    · have : lexCmp (keyAt (i - 1)) rem = Ordering.lt := hlo (i - 1) (by omega)
      rw [this]
      decide
    · intro j hjN hj
      by_contra hgt
      have : lexCmp (keyAt j) rem = Ordering.gt := hhi j (by omega) hjN
      exact hj this

/-! ### Characterising one scanner step -/

theorem keyAt_get {i : Nat} (h : i < KNOWN_SEQUENCES.length) :
    keyAt i = (KNOWN_SEQUENCES.get ⟨i, h⟩).1 := by
  unfold keyAt
  rw [List.getD_eq_get KNOWN_SEQUENCES ([], 0) h]

theorem keyAt_inj {i j : Nat} (hi : i < KNOWN_SEQUENCES.length)
    (hj : j < KNOWN_SEQUENCES.length) (h : keyAt i = keyAt j) : i = j := by
  rcases Nat.lt_trichotomy i j with hc | hc | hc
  · have := table_sorted i j hc hj
    rw [h, lexCmp_self] at this
    exact absurd this (by decide)
  · exact hc
  · have := table_sorted j i hc hi
    rw [h, lexCmp_self] at this
    exact absurd this (by decide)

/-- If `key` is a table entry that is a prefix of the remaining text and every
table key at or below the remaining text in sort order is at or below `key`,
then the step is `Mapped` with that entry's code, consuming the entry. -/
theorem next_mapped_of_best {pos : Nat} {rem key : List Nat} {code : Nat}
    (hmem : (key, code) ∈ KNOWN_SEQUENCES)
    (hpre : key <+: rem)
    (hmax : ∀ e ∈ KNOWN_SEQUENCES, lexCmp e.1 rem ≠ Ordering.gt →
      lexCmp e.1 key ≠ Ordering.gt) :
    MacRomanEncoder.next pos rem =
      some (⟨pos, strByteLen key, ScanOutcome.mapped code⟩,
            pos + strByteLen key, rem.drop key.length) := by
  have hkeyne : key ≠ [] := table_keys_ne_nil (key, code) hmem
  obtain ⟨c, rest, hrem⟩ : ∃ c rest, rem = c :: rest := by
    cases rem with
    | nil =>
      obtain ⟨t, ht⟩ := hpre
      cases key with
      | nil => exact absurd rfl hkeyne
      | cons k ks => simp at ht
    | cons c rest => exact ⟨c, rest, rfl⟩
  subst hrem
  obtain ⟨⟨i, hiN⟩, hget⟩ := List.mem_iff_get.mp hmem
  have hkeyi : keyAt i = key := by
    rw [keyAt_get hiN, hget]
  have hle : lexCmp key (c :: rest) ≠ Ordering.gt := lexCmp_ne_gt_of_isPrefix hpre
  obtain ⟨hbest1, hbest2⟩ := bestIndex_spec hiN (by rw [hkeyi]; exact hle)
  have hbN : bestIndex (c :: rest) < KNOWN_SEQUENCES.length :=
    bestIndex_lt (c :: rest)
  have hib : i ≤ bestIndex (c :: rest) := hbest2 i hiN (by rw [hkeyi]; exact hle)
  have hbkey : lexCmp (keyAt (bestIndex (c :: rest))) key ≠ Ordering.gt := by
    have hmemb : KNOWN_SEQUENCES.get ⟨bestIndex (c :: rest), hbN⟩ ∈ KNOWN_SEQUENCES :=
      List.get_mem KNOWN_SEQUENCES _ hbN
    have := hmax _ hmemb (by rw [← keyAt_get hbN]; exact hbest1)
    rw [← keyAt_get hbN] at this
    exact this
  have hieq : i = bestIndex (c :: rest) := by
    by_contra hne
    have hilt : i < bestIndex (c :: rest) := by omega
    have := table_sorted i (bestIndex (c :: rest)) hilt hbN
    rw [hkeyi] at this
    exact hbkey (lexCmp_lt_iff_gt.mp this)
  have hgetb : KNOWN_SEQUENCES.get ⟨bestIndex (c :: rest), hbN⟩ = (key, code) := by
    have : (⟨bestIndex (c :: rest), hbN⟩ : Fin KNOWN_SEQUENCES.length) = ⟨i, hiN⟩ := by
      rw [Fin.mk.injEq]
      omega
    rw [this, hget]
  have hpre' : key.isPrefixOf (c :: rest) = true := List.isPrefixOf_iff_prefix.mpr hpre
  rw [MacRomanEncoder.next]
  simp only [dif_pos hbN, hgetb, hpre', if_true]

theorem strByteLen_single (c : Nat) : strByteLen [c] = utf8Len c := by
  simp [strByteLen, utf8Encode, utf8Len]

/-- When the candidate's key is not a prefix of the remaining text, the step
falls back to consuming exactly the first scalar value as unmappable. -/
theorem next_fallback {pos c : Nat} {rest : List Nat}
    (hnp : ¬ (keyAt (bestIndex (c :: rest))).isPrefixOf (c :: rest) = true) :
    MacRomanEncoder.next pos (c :: rest) =
      some (⟨pos, utf8Len c, ScanOutcome.unmappable c⟩, pos + utf8Len c, rest) := by
  have hbN : bestIndex (c :: rest) < KNOWN_SEQUENCES.length :=
    bestIndex_lt (c :: rest)
  rw [keyAt_get hbN] at hnp
  rw [MacRomanEncoder.next]
  simp only [dif_pos hbN, if_neg hnp]

/-- Every successful step consumes a non-empty scalar-value prefix whose
byte length is the reported length. -/
theorem next_some_spec {pos : Nat} {rem : List Nat} {s : ScanStep} {pos' : Nat}
    {rem' : List Nat} (h : MacRomanEncoder.next pos rem = some (s, pos', rem')) :
    ∃ consumed, consumed ≠ [] ∧ rem = consumed ++ rem' ∧ s.pos = pos ∧
      s.len = strByteLen consumed ∧ pos' = pos + strByteLen consumed := by
  cases rem with
  | nil => simp [MacRomanEncoder.next] at h
  | cons c rest =>
    rw [MacRomanEncoder.next] at h
    split at h
    case h_1 r heq =>
      obtain ⟨r1, r2, r3⟩ := r
      simp only [Option.some.injEq, Prod.mk.injEq] at h
      obtain ⟨hs, hpos, hrem⟩ := h
      split at heq
      case isTrue hb =>
        split at heq
        rename_i sequence code hget
        split at heq
        case isTrue hp =>
          simp only [Option.some.injEq, Prod.mk.injEq] at heq
          obtain ⟨hstep, hpos2, hdrop⟩ := heq
          have hmem : (sequence, code) ∈ KNOWN_SEQUENCES :=
            hget ▸ List.get_mem KNOWN_SEQUENCES _ hb
          have hne : sequence ≠ [] := table_keys_ne_nil _ hmem
          have hpre : sequence <+: (c :: rest) := List.isPrefixOf_iff_prefix.mp hp
          obtain ⟨t, ht⟩ := hpre
          refine ⟨sequence, hne, ?_, ?_, ?_, ?_⟩
          · rw [← hrem, ← hdrop, ← ht]
            rw [List.drop_left]
          · rw [← hs, ← hstep]
          · rw [← hs, ← hstep]
          · rw [← hpos, ← hpos2]
        case isFalse => exact absurd heq (by simp)
      case isFalse => exact absurd heq (by simp)
    case h_2 heq =>
      simp only [Option.some.injEq, Prod.mk.injEq] at h
      obtain ⟨hs, hpos, hrem⟩ := h
      refine ⟨[c], by simp, by simp [← hrem], ?_, ?_, ?_⟩
      · rw [← hs]
      · rw [← hs, strByteLen_single]
      · rw [← hpos, strByteLen_single]

/-- Inversion for an unmappable step: it carries the first scalar value and
consumes exactly its UTF-8 byte length. -/
theorem next_unmappable_spec {pos c : Nat} {rest : List Nat} {s : ScanStep}
    {pos' : Nat} {rem' : List Nat}
    (h : MacRomanEncoder.next pos (c :: rest) = some (s, pos', rem'))
    {v : Nat} (hout : s.out = ScanOutcome.unmappable v) :
    v = c ∧ s.pos = pos ∧ s.len = utf8Len c ∧ pos' = pos + utf8Len c ∧
      rem' = rest := by
  rw [MacRomanEncoder.next] at h
  split at h
  case h_1 r heq =>
    obtain ⟨r1, r2, r3⟩ := r
    simp only [Option.some.injEq, Prod.mk.injEq] at h
    obtain ⟨hs, hpos, hrem⟩ := h
    split at heq
    case isTrue hb =>
      split at heq
      rename_i sequence code hget
      split at heq
      case isTrue hp =>
        simp only [Option.some.injEq, Prod.mk.injEq] at heq
        obtain ⟨hstep, hpos2, hdrop⟩ := heq
        rw [← hs, ← hstep] at hout
        simp at hout
      case isFalse => exact absurd heq (by simp)
    case isFalse => exact absurd heq (by simp)
  case h_2 heq =>
    simp only [Option.some.injEq, Prod.mk.injEq] at h
    obtain ⟨hs, hpos, hrem⟩ := h
    rw [← hs] at hout
    simp only at hout
    cases hout
    exact ⟨rfl, by rw [← hs], by rw [← hs], by rw [← hpos], by rw [← hrem]⟩

/-! ### Whole-scan lemmas -/

theorem next_none_iff {pos : Nat} {rem : List Nat} :
    MacRomanEncoder.next pos rem = none ↔ rem = [] := by
  cases rem with
  | nil => simp [MacRomanEncoder.next]
  | cons c rest =>
    constructor
    · intro h
      rw [MacRomanEncoder.next] at h
      split at h
      · exact absurd h (by simp)
      · exact absurd h (by simp)
    · intro h
      exact absurd h (by simp)

theorem scanFrom_none {pos : Nat} {rem : List Nat}
    (h : MacRomanEncoder.next pos rem = none) : scanFrom pos rem = [] := by
  rw [scanFrom]
  split <;> simp_all

theorem scanFrom_some {pos : Nat} {rem : List Nat} {s : ScanStep} {pos' : Nat}
    {rem' : List Nat} (h : MacRomanEncoder.next pos rem = some (s, pos', rem')) :
    scanFrom pos rem = s :: scanFrom pos' rem' := by
  rw [scanFrom]
  split
  · simp_all
  · rename_i s2 p2 r2 heq
    rw [h] at heq
    simp only [Option.some.injEq, Prod.mk.injEq] at heq
    obtain ⟨h1, h2, h3⟩ := heq
    rw [h1, h2, h3]

theorem utf8Encode_append (a b : List Nat) :
    utf8Encode (a ++ b) = utf8Encode a ++ utf8Encode b := by
  simp [utf8Encode]

theorem strByteLen_append (a b : List Nat) :
    strByteLen (a ++ b) = strByteLen a + strByteLen b := by
  simp [strByteLen, utf8Encode_append]

theorem utf8EncodeChar_ne_nil (c : Nat) : utf8EncodeChar c ≠ [] := by
  unfold utf8EncodeChar
  split_ifs <;> simp

theorem utf8Len_pos (c : Nat) : 1 ≤ utf8Len c := by
  have := utf8EncodeChar_ne_nil c
  unfold utf8Len
  cases h : utf8EncodeChar c with
  | nil => exact absurd h this
  | cons b bs => simp

theorem strByteLen_pos {s : List Nat} (h : s ≠ []) : 1 ≤ strByteLen s := by
  cases s with
  | nil => exact absurd rfl h
  | cons c t =>
    have : strByteLen (c :: t) = utf8Len c + strByteLen t := by
      simp [strByteLen, utf8Encode, utf8Len]
    rw [this]
    have := utf8Len_pos c
    omega

/-- Offset bookkeeping of a step list: the first offset is the given start,
each later offset is the previous offset plus the previous consumed length,
and start plus the total consumed length is the given end. -/
def covers : Nat → List ScanStep → Nat → Prop
  | pos, [], q => pos = q
  | pos, s :: rest, q => s.pos = pos ∧ covers (pos + s.len) rest q

theorem scanFrom_covers (pos : Nat) (rem : List Nat) :
    covers pos (scanFrom pos rem) (pos + strByteLen rem) := by
  cases hn : MacRomanEncoder.next pos rem with
  | none =>
    have hrem : rem = [] := next_none_iff.mp hn
    rw [scanFrom_none hn, hrem]
    show pos = pos + strByteLen []
    simp [strByteLen, utf8Encode]
  | some v =>
    obtain ⟨s, pos', rem'⟩ := v
    rw [scanFrom_some hn]
    obtain ⟨consumed, hne, happ, hspos, hslen, hpos'⟩ := next_some_spec hn
    refine ⟨hspos, ?_⟩
    have h1 : pos + s.len = pos' := by rw [hslen, hpos']
    have h2 : pos + strByteLen rem = pos' + strByteLen rem' := by
      rw [happ, strByteLen_append]
      omega
    rw [h1, h2]
    exact scanFrom_covers pos' rem'
  termination_by rem.length
  decreasing_by exact next_rem_lt hn

theorem scanFrom_join (full : List Nat) (pos : Nat) (rem : List Nat)
    (hdrop : (utf8Encode full).drop pos = utf8Encode rem) :
    ((scanFrom pos rem).map
      (fun s => ((utf8Encode full).drop s.pos).take s.len)).flatten =
        utf8Encode rem := by
  cases hn : MacRomanEncoder.next pos rem with
  | none =>
    have hrem : rem = [] := next_none_iff.mp hn
    rw [scanFrom_none hn, hrem]
    simp [utf8Encode]
  | some v =>
    obtain ⟨s, pos', rem'⟩ := v
    rw [scanFrom_some hn]
    obtain ⟨consumed, hne, happ, hspos, hslen, hpos'⟩ := next_some_spec hn
    have hrembytes : utf8Encode rem = utf8Encode consumed ++ utf8Encode rem' := by
      rw [happ, utf8Encode_append]
    have hdrop' : (utf8Encode full).drop pos' = utf8Encode rem' := by
      rw [hpos', ← List.drop_drop, hdrop, hrembytes]
      have : strByteLen consumed = (utf8Encode consumed).length := rfl
      rw [this, List.drop_left]
    have hhead : ((utf8Encode full).drop s.pos).take s.len = utf8Encode consumed := by
      rw [hspos, hslen, hdrop, hrembytes]
      have : strByteLen consumed = (utf8Encode consumed).length := rfl
      rw [this, List.take_left]
    rw [List.map_cons, List.flatten_cons, hhead,
      scanFrom_join full pos' rem' hdrop', hrembytes]
  termination_by rem.length
  decreasing_by exact next_rem_lt hn

theorem scanFrom_count_le (pos : Nat) (rem : List Nat) :
    (scanFrom pos rem).length ≤ rem.length := by
  cases hn : MacRomanEncoder.next pos rem with
  | none => rw [scanFrom_none hn]; simp
  | some v =>
    obtain ⟨s, pos', rem'⟩ := v
    rw [scanFrom_some hn]
    have h1 := scanFrom_count_le pos' rem'
    have h2 := next_rem_lt hn
    simp only [List.length_cons]
    omega
  termination_by rem.length
  decreasing_by exact next_rem_lt hn

theorem scanFrom_step_len_pos (pos : Nat) (rem : List Nat) :
    ∀ s ∈ scanFrom pos rem, 1 ≤ s.len := by
  cases hn : MacRomanEncoder.next pos rem with
  | none => rw [scanFrom_none hn]; simp
  | some v =>
    obtain ⟨s, pos', rem'⟩ := v
    rw [scanFrom_some hn]
    intro x hx
    rcases List.mem_cons.mp hx with hx | hx
    · obtain ⟨consumed, hne, happ, hspos, hslen, hpos'⟩ := next_some_spec hn
      rw [hx, hslen]
      exact strByteLen_pos hne
    · exact scanFrom_step_len_pos pos' rem' x hx
  termination_by rem.length
  decreasing_by exact next_rem_lt hn

/-! ### Agreement of byte-level and scalar-value-level comparison -/

theorem utf8Encode_cons (c : Nat) (t : List Nat) :
    utf8Encode (c :: t) = utf8EncodeChar c ++ utf8Encode t := by
  simp [utf8Encode]

set_option maxHeartbeats 2000000 in
theorem utf8EncodeChar_lexCmp_append (a b : Nat) (as bs : List Nat)
    (ha : a < 0x110000) (hb : b < 0x110000) :
    lexCmp (utf8EncodeChar a ++ as) (utf8EncodeChar b ++ bs) =
      if a < b then Ordering.lt
      else if b < a then Ordering.gt
      else lexCmp as bs := by
  unfold utf8EncodeChar
  split_ifs <;>
    simp only [List.cons_append, List.nil_append, lexCmp] <;>
    split_ifs <;> first | rfl | omega

/-- The byte-level lexicographic order used by the source's `&str` comparison
agrees with the scalar-value-level lexicographic order for all well-formed
inputs, so comparing scalar-value lists is a faithful model. -/
theorem lexCmp_utf8Encode_agrees : ∀ (xs ys : List Nat),
    (∀ c ∈ xs, c < 0x110000) → (∀ c ∈ ys, c < 0x110000) →
    lexCmp (utf8Encode xs) (utf8Encode ys) = lexCmp xs ys := by
  intro xs
  induction xs with
  | nil =>
    intro ys _ _
    cases ys with
    | nil => rfl
    | cons y ys2 =>
      rw [utf8Encode_cons]
      cases h : utf8EncodeChar y with
      | nil => exact absurd h (utf8EncodeChar_ne_nil y)
      | cons b bs =>
        show lexCmp (utf8Encode []) _ = _
        simp [utf8Encode, lexCmp]
  | cons x xs2 ih =>
    intro ys hxs hys
    cases ys with
    | nil =>
      rw [utf8Encode_cons]
      cases h : utf8EncodeChar x with
      | nil => exact absurd h (utf8EncodeChar_ne_nil x)
      | cons b bs =>
        show lexCmp _ (utf8Encode []) = _
        simp [utf8Encode, lexCmp]
    | cons y ys2 =>
      have hx : x < 0x110000 := hxs x (List.mem_cons_self x xs2)
      have hy : y < 0x110000 := hys y (List.mem_cons_self y ys2)
      rw [utf8Encode_cons, utf8Encode_cons,
        utf8EncodeChar_lexCmp_append x y _ _ hx hy]
      have hxs2 : ∀ c ∈ xs2, c < 0x110000 := fun c hc => hxs c (List.mem_cons_of_mem x hc)
      have hys2 : ∀ c ∈ ys2, c < 0x110000 := fun c hc => hys c (List.mem_cons_of_mem y hc)
      show _ = lexCmp (x :: xs2) (y :: ys2)
      rw [show lexCmp (x :: xs2) (y :: ys2) =
        if x < y then Ordering.lt else if y < x then Ordering.gt
        else lexCmp xs2 ys2 from rfl]
      split_ifs <;> first | rfl | exact ih ys2 hxs2 hys2

/-! ### Facts about the concrete table -/

theorem table_key_lengths : ∀ e ∈ KNOWN_SEQUENCES,
    e.1.length = 1 ∨ e.1.length = 2 := by decide

theorem table_second_cp : ∀ e ∈ KNOWN_SEQUENCES,
    e.1.length = 2 → 0x300 ≤ e.1.getD 1 0 := by decide

theorem table_valid : ∀ e ∈ KNOWN_SEQUENCES, ∀ c ∈ e.1, c < 0x110000 := by
  decide

theorem table_ascii_mem : ∀ c, c < 0x80 → ([c], c) ∈ KNOWN_SEQUENCES := by decide

theorem utf8Len_ascii {c : Nat} (hc : c < 0x80) : utf8Len c = 1 := by
  unfold utf8Len utf8EncodeChar
  rw [if_pos hc]
  rfl

/-! ### Maximality of the candidate key -/

theorem max_key_pair {X M : Nat} {s : List Nat} :
    ∀ e ∈ KNOWN_SEQUENCES, lexCmp e.1 (X :: M :: s) ≠ Ordering.gt →
      lexCmp e.1 [X, M] ≠ Ordering.gt := by
  intro e he hle
  rcases table_key_lengths e he with h1 | h2
  · obtain ⟨y, hy⟩ := List.length_eq_one.mp h1
    rw [hy] at hle ⊢
    simp only [lexCmp] at hle ⊢
    split_ifs at hle ⊢ <;> first | omega | decide | simp_all
  · obtain ⟨y, z, hyz⟩ := List.length_eq_two.mp h2
    rw [hyz] at hle ⊢
    simp only [lexCmp] at hle ⊢
    split_ifs at hle ⊢ <;> first | omega | decide | simp_all

theorem max_key_ascii {c : Nat} {rest : List Nat}
    (hrest : rest = [] ∨ ∃ d t, rest = d :: t ∧ d < 0x300) :
    ∀ e ∈ KNOWN_SEQUENCES, lexCmp e.1 (c :: rest) ≠ Ordering.gt →
      lexCmp e.1 [c] ≠ Ordering.gt := by
  intro e he hle
  rcases table_key_lengths e he with h1 | h2
  · obtain ⟨y, hy⟩ := List.length_eq_one.mp h1
    rw [hy] at hle ⊢
    simp only [lexCmp] at hle ⊢
    split_ifs at hle ⊢ <;> first | omega | decide | simp_all
  · obtain ⟨y, z, hyz⟩ := List.length_eq_two.mp h2
    have hz : 0x300 ≤ z := by
      have := table_second_cp e he (by rw [hyz]; rfl)
      rw [hyz] at this
      simpa using this
    rw [hyz] at hle ⊢
    rcases hrest with rfl | ⟨d, t, rfl, hd⟩
    · simp only [lexCmp] at hle ⊢
      split_ifs at hle ⊢ <;> first | omega | decide | simp_all
    · simp only [lexCmp] at hle ⊢
      split_ifs at hle ⊢ <;> first | omega | decide | simp_all

/-- The candidate selected by the binary search is the table entry carrying
`key` whenever `key` is a table key at or below the probe in sort order that
dominates every other such key. -/
theorem bestIndex_key_eq {rem key : List Nat} {code : Nat}
    (hmem : (key, code) ∈ KNOWN_SEQUENCES)
    (hle : lexCmp key rem ≠ Ordering.gt)
    (hmax : ∀ e ∈ KNOWN_SEQUENCES, lexCmp e.1 rem ≠ Ordering.gt →
      lexCmp e.1 key ≠ Ordering.gt) :
    keyAt (bestIndex rem) = key := by
  obtain ⟨⟨i, hiN⟩, hget⟩ := List.mem_iff_get.mp hmem
  have hkeyi : keyAt i = key := by rw [keyAt_get hiN, hget]
  obtain ⟨hbest1, hbest2⟩ := bestIndex_spec hiN (by rw [hkeyi]; exact hle)
  have hbN : bestIndex rem < KNOWN_SEQUENCES.length := bestIndex_lt rem
  have hib : i ≤ bestIndex rem := hbest2 i hiN (by rw [hkeyi]; exact hle)
  have hbkey : lexCmp (keyAt (bestIndex rem)) key ≠ Ordering.gt := by
    have hmemb := List.get_mem KNOWN_SEQUENCES _ hbN
    have := hmax _ hmemb (by rw [← keyAt_get hbN]; exact hbest1)
    rw [← keyAt_get hbN] at this
    exact this
  have hieq : i = bestIndex rem := by
    by_contra hne
    have hilt : i < bestIndex rem := by omega
    have := table_sorted i (bestIndex rem) hilt hbN
    rw [hkeyi] at this
    exact hbkey (lexCmp_lt_iff_gt.mp this)
  rw [← hieq, hkeyi]

/-- Fallback step characterised through the dominating candidate key. -/
theorem next_fallback_of_best {pos c : Nat} {rest key : List Nat} {code : Nat}
    (hmem : (key, code) ∈ KNOWN_SEQUENCES)
    (hle : lexCmp key (c :: rest) ≠ Ordering.gt)
    (hmax : ∀ e ∈ KNOWN_SEQUENCES, lexCmp e.1 (c :: rest) ≠ Ordering.gt →
      lexCmp e.1 key ≠ Ordering.gt)
    (hnp : key.isPrefixOf (c :: rest) = false) :
    MacRomanEncoder.next pos (c :: rest) =
      some (⟨pos, utf8Len c, ScanOutcome.unmappable c⟩, pos + utf8Len c, rest) := by
  apply next_fallback
  rw [bestIndex_key_eq hmem hle hmax, hnp]
  simp

/-- One step on an ASCII head (with no combining mark following) maps the
head to itself, consuming one byte. -/
theorem next_ascii {pos c : Nat} {rest : List Nat} (hc : c < 0x80)
    (hrest : rest = [] ∨ ∃ d t, rest = d :: t ∧ d < 0x300) :
    MacRomanEncoder.next pos (c :: rest) =
      some (⟨pos, 1, ScanOutcome.mapped c⟩, pos + 1, rest) := by
  have h := @next_mapped_of_best pos (c :: rest) [c] c (table_ascii_mem c hc)
    ⟨rest, rfl⟩ (max_key_ascii hrest)
  rw [strByteLen_single, utf8Len_ascii hc] at h
  simpa using h

/-- The expected output on all-ASCII input: one 1-byte `Mapped` step per
scalar value, carrying the scalar value itself as the code. -/
def asciiSteps (pos : Nat) : List Nat → List ScanStep
  | [] => []
  | c :: rest => ⟨pos, 1, ScanOutcome.mapped c⟩ :: asciiSteps (pos + 1) rest

theorem scanFrom_ascii : ∀ (input : List Nat), (∀ c ∈ input, c < 0x80) →
    ∀ pos, scanFrom pos input = asciiSteps pos input := by
  intro input
  induction input with
  | nil =>
    intro _ pos
    rw [scanFrom_none (next_none_iff.mpr rfl)]
    rfl
  | cons c rest ih =>
    intro hall pos
    have hc : c < 0x80 := hall c (List.mem_cons_self c rest)
    have hrest : rest = [] ∨ ∃ d t, rest = d :: t ∧ d < 0x300 := by
      cases rest with
      | nil => exact Or.inl rfl
      | cons d t =>
        refine Or.inr ⟨d, t, rfl, ?_⟩
        have := hall d (List.mem_cons_of_mem c (List.mem_cons_self d t))
        omega
    rw [scanFrom_some (next_ascii hc hrest),
      ih (fun d hd => hall d (List.mem_cons_of_mem c hd)) (pos + 1)]
    rfl

/-! ### Concrete step evaluations -/

theorem next_cafe1 : MacRomanEncoder.next 0 [0x63, 0x61, 0x66, 0xE9] =
    some (⟨0, 1, ScanOutcome.mapped 99⟩, 1, [0x61, 0x66, 0xE9]) :=
  @next_mapped_of_best 0 [0x63, 0x61, 0x66, 0xE9] [0x63] 99 (by decide)
    ⟨[0x61, 0x66, 0xE9], rfl⟩ (by decide)

theorem next_cafe2 : MacRomanEncoder.next 1 [0x61, 0x66, 0xE9] =
    some (⟨1, 1, ScanOutcome.mapped 97⟩, 2, [0x66, 0xE9]) :=
  @next_mapped_of_best 1 [0x61, 0x66, 0xE9] [0x61] 97 (by decide)
    ⟨[0x66, 0xE9], rfl⟩ (by decide)

theorem next_cafe3 : MacRomanEncoder.next 2 [0x66, 0xE9] =
    some (⟨2, 1, ScanOutcome.mapped 102⟩, 3, [0xE9]) :=
  @next_mapped_of_best 2 [0x66, 0xE9] [0x66] 102 (by decide)
    ⟨[0xE9], rfl⟩ (by decide)

theorem next_cafe4 : MacRomanEncoder.next 3 [0xE9] =
    some (⟨3, 2, ScanOutcome.mapped 142⟩, 5, []) :=
  @next_mapped_of_best 3 [0xE9] [0xE9] 142 (by decide)
    ⟨[], rfl⟩ (by decide)

theorem encode_cafe_composed : encode [0x63, 0x61, 0x66, 0xE9] =
    [⟨0, 1, ScanOutcome.mapped 99⟩, ⟨1, 1, ScanOutcome.mapped 97⟩,
     ⟨2, 1, ScanOutcome.mapped 102⟩, ⟨3, 2, ScanOutcome.mapped 142⟩] := by
  rw [encode, scanFrom_some next_cafe1, scanFrom_some next_cafe2,
    scanFrom_some next_cafe3, scanFrom_some next_cafe4,
    scanFrom_none (next_none_iff.mpr rfl)]

theorem next_cafe5 : MacRomanEncoder.next 0 [0x63, 0x61, 0x66, 0x65, 0x301] =
    some (⟨0, 1, ScanOutcome.mapped 99⟩, 1, [0x61, 0x66, 0x65, 0x301]) :=
  @next_mapped_of_best 0 [0x63, 0x61, 0x66, 0x65, 0x301] [0x63] 99 (by decide)
    ⟨[0x61, 0x66, 0x65, 0x301], rfl⟩ (by decide)

theorem next_cafe6 : MacRomanEncoder.next 1 [0x61, 0x66, 0x65, 0x301] =
    some (⟨1, 1, ScanOutcome.mapped 97⟩, 2, [0x66, 0x65, 0x301]) :=
  @next_mapped_of_best 1 [0x61, 0x66, 0x65, 0x301] [0x61] 97 (by decide)
    ⟨[0x66, 0x65, 0x301], rfl⟩ (by decide)

theorem next_cafe7 : MacRomanEncoder.next 2 [0x66, 0x65, 0x301] =
    some (⟨2, 1, ScanOutcome.mapped 102⟩, 3, [0x65, 0x301]) :=
  @next_mapped_of_best 2 [0x66, 0x65, 0x301] [0x66] 102 (by decide)
    ⟨[0x65, 0x301], rfl⟩ (by decide)

theorem next_cafe8 : MacRomanEncoder.next 3 [0x65, 0x301] =
    some (⟨3, 3, ScanOutcome.mapped 142⟩, 6, []) :=
  @next_mapped_of_best 3 [0x65, 0x301] [0x65, 0x301] 142 (by decide)
    ⟨[], rfl⟩ (by decide)

theorem encode_cafe_decomposed : encode [0x63, 0x61, 0x66, 0x65, 0x301] =
    [⟨0, 1, ScanOutcome.mapped 99⟩, ⟨1, 1, ScanOutcome.mapped 97⟩,
     ⟨2, 1, ScanOutcome.mapped 102⟩, ⟨3, 3, ScanOutcome.mapped 142⟩] := by
  rw [encode, scanFrom_some next_cafe5, scanFrom_some next_cafe6,
    scanFrom_some next_cafe7, scanFrom_some next_cafe8,
    scanFrom_none (next_none_iff.mpr rfl)]

theorem next_a030B1 : MacRomanEncoder.next 0 [0x61, 0x30B] =
    some (⟨0, 1, ScanOutcome.unmappable 0x61⟩, 1, [0x30B]) :=
  @next_fallback_of_best 0 0x61 [0x30B] [0x61, 0x30A] 140 (by decide)
    (by decide) (by decide) (by decide)

theorem next_a030B2 : MacRomanEncoder.next 1 [0x30B] =
    some (⟨1, 2, ScanOutcome.unmappable 0x30B⟩, 3, []) :=
  @next_fallback_of_best 1 0x30B [] [0x2DD] 253 (by decide)
    (by decide) (by decide) (by decide)

theorem encode_a030B : encode [0x61, 0x30B] =
    [⟨0, 1, ScanOutcome.unmappable 0x61⟩, ⟨1, 2, ScanOutcome.unmappable 0x30B⟩] := by
  rw [encode, scanFrom_some next_a030B1, scanFrom_some next_a030B2,
    scanFrom_none (next_none_iff.mpr rfl)]

/-! ### Claim theorems -/

/-- C1 (code bug): the spec claims an Unmappable outcome is emitted only when
no table entry is a prefix of the remaining text, so a step never reports
Unmappable for a scalar value that itself has a table entry.  The code
violates this: on the input U+0061 U+030B, the binary-search candidate is the
entry for U+0061 U+030A, which is not a prefix, and the scanner emits
`Unmappable(U+0061)` even though `([0x61], 97)` is a table entry (and hence
the entry `"a"` *is* a prefix of the remaining text). -/
theorem C1_unmappable_despite_entry :
    encode [0x61, 0x30B] =
      [⟨0, 1, ScanOutcome.unmappable 0x61⟩,
       ⟨1, 2, ScanOutcome.unmappable 0x30B⟩] ∧
    ([0x61], 97) ∈ KNOWN_SEQUENCES ∧
    [0x61] <+: [0x61, 0x30B] := by
  refine ⟨encode_a030B, by decide, ⟨[0x30B], rfl⟩⟩

/-- C2 (counterexample): the claim asserts that encoding `café` with composed
é (U+00E9) yields the codes `[99, 97, 102, 233]`; in fact the last step's code
is 142, not 233. -/
theorem C2_counterexample :
    (encode [0x63, 0x61, 0x66, 0xE9]).map ScanStep.out ≠
      [ScanOutcome.mapped 99, ScanOutcome.mapped 97, ScanOutcome.mapped 102,
       ScanOutcome.mapped 233] := by
  rw [encode_cafe_composed]
  decide

/-- C2 (amended): encoding `café` with composed é (U+00E9) yields four Mapped
steps with codes `[99, 97, 102, 142]`; encoding the decomposed spelling
(U+0065 U+0301) also yields 142 for the last step, and that final step
consumes both remaining scalar values at once. -/
theorem C2_known_example :
    encode [0x63, 0x61, 0x66, 0xE9] =
      [⟨0, 1, ScanOutcome.mapped 99⟩, ⟨1, 1, ScanOutcome.mapped 97⟩,
       ⟨2, 1, ScanOutcome.mapped 102⟩, ⟨3, 2, ScanOutcome.mapped 142⟩] ∧
    encode [0x63, 0x61, 0x66, 0x65, 0x301] =
      [⟨0, 1, ScanOutcome.mapped 99⟩, ⟨1, 1, ScanOutcome.mapped 97⟩,
       ⟨2, 1, ScanOutcome.mapped 102⟩, ⟨3, 3, ScanOutcome.mapped 142⟩] ∧
    MacRomanEncoder.next 3 [0x65, 0x301] =
      some (⟨3, 3, ScanOutcome.mapped 142⟩, 6, []) :=
  ⟨encode_cafe_composed, encode_cafe_decomposed, next_cafe8⟩

theorem asciiSteps_length : ∀ (l : List Nat) (pos : Nat),
    (asciiSteps pos l).length = l.length := by
  intro l
  induction l with
  | nil => intro pos; rfl
  | cons c rest ih => intro pos; simp [asciiSteps, ih]

/-- C3 (longest-match preference): if the table has a 1-codepoint entry for
`X` and a 2-codepoint entry for `X` followed by the combining mark `M`, and
the input continues with `X M` at the current position, the scanner emits one
`Mapped` step spanning both scalar values with the 2-codepoint entry's code,
and the scan resumes after both — never a separate step for `X` alone. -/
theorem C3_longest_match {X M c1 c2 pos : Nat} {s : List Nat}
    (h1 : ([X], c1) ∈ KNOWN_SEQUENCES)
    (h2 : ([X, M], c2) ∈ KNOWN_SEQUENCES) :
    MacRomanEncoder.next pos (X :: M :: s) =
      some (⟨pos, utf8Len X + utf8Len M, ScanOutcome.mapped c2⟩,
            pos + (utf8Len X + utf8Len M), s) ∧
    scanFrom pos (X :: M :: s) =
      ⟨pos, utf8Len X + utf8Len M, ScanOutcome.mapped c2⟩ ::
        scanFrom (pos + (utf8Len X + utf8Len M)) s := by
  have h := @next_mapped_of_best pos (X :: M :: s) [X, M] c2 h2 ⟨s, rfl⟩ max_key_pair
  have hlen : strByteLen [X, M] = utf8Len X + utf8Len M := by
    simp [strByteLen, utf8Encode, utf8Len]
  rw [hlen] at h
  exact ⟨h, scanFrom_some h⟩

/-- Witness for C3 at `X` = e, `M` = combining acute, entries (e, 101) and
(é decomposed, 142). -/
theorem C3_longest_match_witness :
    MacRomanEncoder.next 0 [0x65, 0x301] =
      some (⟨0, utf8Len 0x65 + utf8Len 0x301, ScanOutcome.mapped 142⟩,
            0 + (utf8Len 0x65 + utf8Len 0x301), []) ∧
    scanFrom 0 [0x65, 0x301] =
      ⟨0, utf8Len 0x65 + utf8Len 0x301, ScanOutcome.mapped 142⟩ ::
        scanFrom (0 + (utf8Len 0x65 + utf8Len 0x301)) [] :=
  @C3_longest_match 0x65 0x301 101 142 0 [] (by decide) (by decide)

/-- C4 (coverage): the steps of a full scan partition the input: the first
offset is 0, each later offset is the previous offset plus its length, the
total is the byte length of the input, the concatenation of the consumed byte
spans reconstructs the input's bytes exactly, and the empty text yields zero
steps. -/
theorem C4_coverage :
    (∀ input : List Nat,
      covers 0 (encode input) (strByteLen input) ∧
      ((encode input).map
        (fun s => ((utf8Encode input).drop s.pos).take s.len)).flatten =
          utf8Encode input) ∧
    encode [] = [] := by
  constructor
  · intro input
    constructor
    · have h := scanFrom_covers 0 input
      rw [Nat.zero_add] at h
      exact h
    · exact scanFrom_join input 0 input (by simp)
  · rw [encode, scanFrom_none (next_none_iff.mpr rfl)]

/-- C5 (progress): every step consumes at least one byte (in fact at least
one whole scalar value), and the number of steps is at most the number of
scalar values in the input, so every scan is finite. -/
theorem C5_progress : ∀ input : List Nat,
    (∀ s ∈ encode input, 1 ≤ s.len) ∧
    (encode input).length ≤ input.length := by
  intro input
  exact ⟨scanFrom_step_len_pos 0 input, scanFrom_count_le 0 input⟩

/-- C6 (ASCII fidelity): on input consisting solely of scalar values below
0x80, the output is one 1-byte `Mapped` step per scalar value whose code is
the scalar value itself. -/
theorem C6_ascii_fidelity (input : List Nat) (h : ∀ c ∈ input, c < 0x80) :
    encode input = asciiSteps 0 input ∧
    (encode input).length = input.length := by
  constructor
  · rw [encode, scanFrom_ascii input h 0]
  · rw [encode, scanFrom_ascii input h 0, asciiSteps_length]

/-- Witness for C6 on the input "Hi" (U+0048 U+0069). -/
theorem C6_ascii_fidelity_witness :
    (encode [0x48, 0x69] = asciiSteps 0 [0x48, 0x69] ∧
      (encode [0x48, 0x69]).length = ([0x48, 0x69] : List Nat).length) ∧
    asciiSteps 0 [0x48, 0x69] =
      [⟨0, 1, ScanOutcome.mapped 0x48⟩, ⟨1, 1, ScanOutcome.mapped 0x69⟩] :=
  ⟨C6_ascii_fidelity [0x48, 0x69] (by decide), rfl⟩

/-- C7 (fallback correctness): whenever a step's outcome is `Unmappable v`,
the value `v` is the first scalar value of the remaining text, the consumed
length is that scalar value's UTF-8 byte length, the next state starts at the
immediately following scalar value, and scanning continues as an ordinary
sequence element. -/
theorem C7_fallback {pos c : Nat} {rest : List Nat} {s : ScanStep}
    {pos' : Nat} {rem' : List Nat} {v : Nat}
    (h : MacRomanEncoder.next pos (c :: rest) = some (s, pos', rem'))
    (hout : s.out = ScanOutcome.unmappable v) :
    v = c ∧ s.pos = pos ∧ s.len = utf8Len c ∧ pos' = pos + utf8Len c ∧
      rem' = rest ∧
      scanFrom pos (c :: rest) = s :: scanFrom (pos + utf8Len c) rest := by
  obtain ⟨h1, h2, h3, h4, h5⟩ := next_unmappable_spec h hout
  refine ⟨h1, h2, h3, h4, h5, ?_⟩
  have hs := scanFrom_some h
  rw [h4, h5] at hs
  exact hs

/-- Witness for C7 on U+1F600 followed by U+0041: the emoji has no entry, the
step reports it unmappable with its 4-byte length, and the scan resumes. -/
theorem C7_fallback_witness :
    scanFrom 0 [0x1F600, 0x41] =
      ⟨0, utf8Len 0x1F600, ScanOutcome.unmappable 0x1F600⟩ ::
        scanFrom (0 + utf8Len 0x1F600) [0x41] := by
  have hnext : MacRomanEncoder.next 0 [0x1F600, 0x41] =
      some (⟨0, utf8Len 0x1F600, ScanOutcome.unmappable 0x1F600⟩,
            0 + utf8Len 0x1F600, [0x41]) :=
    @next_fallback_of_best 0 0x1F600 [0x41] [0xFB02] 223 (by decide)
      (by decide) (by decide) (by decide)
  exact (C7_fallback hnext rfl).2.2.2.2.2

/-- C9 (safety/totality): each invocation of `next` is total: the candidate
index after the saturating decrement is always strictly within the table, the
step exists exactly when text remains, and the byte length used to advance
always falls on a scalar-value boundary, so the suffix re-slicing is exact. -/
theorem C9_next_total (pos : Nat) (rem : List Nat) :
    bestIndex rem < KNOWN_SEQUENCES.length ∧
    (MacRomanEncoder.next pos rem = none ↔ rem = []) ∧
    (∀ s pos' rem', MacRomanEncoder.next pos rem = some (s, pos', rem') →
      ∃ consumed, consumed ≠ [] ∧ rem = consumed ++ rem' ∧
        s.len = strByteLen consumed ∧
        (utf8Encode rem).drop s.len = utf8Encode rem') := by
  refine ⟨bestIndex_lt rem, next_none_iff, ?_⟩
  intro s pos' rem' h
  obtain ⟨consumed, hne, happ, hspos, hslen, hpos'⟩ := next_some_spec h
  refine ⟨consumed, hne, happ, hslen, ?_⟩
  rw [happ, utf8Encode_append, hslen]
  have hb : strByteLen consumed = (utf8Encode consumed).length := rfl
  rw [hb, List.drop_left]

/-- Witness for C9 at the single-scalar input U+0041. -/
theorem C9_next_total_witness :
    bestIndex [0x41] < KNOWN_SEQUENCES.length ∧
    (∃ consumed, consumed ≠ [] ∧ [0x41] = consumed ++ ([] : List Nat) ∧
      (1 : Nat) = strByteLen consumed ∧
      (utf8Encode [0x41]).drop 1 = utf8Encode []) := by
  have hnext : MacRomanEncoder.next 0 [0x41] =
      some (⟨0, 1, ScanOutcome.mapped 0x41⟩, 1, []) :=
    next_ascii (by decide) (Or.inl rfl)
  obtain ⟨consumed, hne, happ, hslen, hdrop⟩ :=
    (C9_next_total 0 [0x41]).2.2 _ _ _ hnext
  exact ⟨(C9_next_total 0 [0x41]).1, consumed, hne, happ, hslen, hdrop⟩

/-- C10: for a non-empty remaining text the binary search never returns
insertion position 0, because the table's first entry is the single scalar
value U+0000, which compares at or below every non-empty text; hence the
saturating decrement never spuriously selects entry 0 when no entry at or
below the probe exists. -/
theorem C10_no_insertion_at_zero (c : Nat) (rest : List Nat) :
    keyAt 0 = [0] ∧ lexCmp (keyAt 0) (c :: rest) ≠ Ordering.gt ∧
    (∀ x, binarySearch (c :: rest) = Except.error x → 1 ≤ x) := by
  have hle : lexCmp (keyAt 0) (c :: rest) ≠ Ordering.gt := by
    show lexCmp [0] (c :: rest) ≠ Ordering.gt
    simp only [lexCmp]
    split_ifs with h1 h2
    · decide
    · omega
    · cases rest <;> simp [lexCmp]
  refine ⟨rfl, hle, ?_⟩
  intro x hx
  obtain ⟨hxN, hlo, hhi⟩ := binarySearch_error hx
  by_contra h0
  have hx0 : x = 0 := by omega
  subst hx0
  exact hle (hhi 0 (by omega) table_length_pos)

/-- Witness for C10 at the input U+030B, whose search lands between two
entries and returns an insertion position of at least 1. -/
theorem C10_no_insertion_at_zero_witness :
    ∃ x, binarySearch [0x30B] = Except.error x ∧ 1 ≤ x := by
  cases hbs : binarySearch [0x30B] with
  | ok i =>
    obtain ⟨hiN, hkey⟩ := binarySearch_ok hbs
    have hno : ∀ j, j < KNOWN_SEQUENCES.length → keyAt j ≠ [0x30B] := by decide
    exact absurd hkey (hno i hiN)
  | error x =>
    exact ⟨x, rfl, (C10_no_insertion_at_zero 0x30B []).2.2 x hbs⟩

/-- C8 (table invariants): the table is strictly sorted by source sequence
under lexicographic comparison of the scalar-value sequences, equivalently of
their UTF-8 byte representations, and no two entries share a source sequence,
so the table defines a function from source sequences to byte codes. -/
theorem C8_table_invariants :
    List.Pairwise (fun a b => lexCmp a.1 b.1 = Ordering.lt) KNOWN_SEQUENCES ∧
    List.Pairwise (fun a b =>
      lexCmp (utf8Encode a.1) (utf8Encode b.1) = Ordering.lt) KNOWN_SEQUENCES ∧
    List.Pairwise (fun a b => a.1 ≠ b.1) KNOWN_SEQUENCES := by
  have hp : List.Pairwise (fun a b => lexCmp a.1 b.1 = Ordering.lt)
      KNOWN_SEQUENCES := by
    rw [List.pairwise_iff_get]
    intro i j hij
    have hs := table_sorted i j hij j.isLt
    rw [keyAt_get i.isLt, keyAt_get j.isLt] at hs
    exact hs
  refine ⟨hp, ?_, ?_⟩
  · refine List.Pairwise.imp_of_mem ?_ hp
    intro a b ha hb hlt
    rw [lexCmp_utf8Encode_agrees a.1 b.1 (table_valid a ha) (table_valid b hb)]
    exact hlt
  · refine hp.imp ?_
    intro a b hlt heq
    rw [heq, lexCmp_self] at hlt
    exact absurd hlt (by decide)

/-- Witness for C5 at the single-scalar input U+1F600: the lone step has
positive length and the step count is bounded by the scalar count. -/
theorem C5_progress_witness :
    (encode [0x1F600]).length ≤ ([0x1F600] : List Nat).length ∧
    1 ≤ (ScanStep.mk 0 (utf8Len 0x1F600) (ScanOutcome.unmappable 0x1F600)).len := by
  have hnext : MacRomanEncoder.next 0 [0x1F600] =
      some (⟨0, utf8Len 0x1F600, ScanOutcome.unmappable 0x1F600⟩,
            0 + utf8Len 0x1F600, []) :=
    @next_fallback_of_best 0 0x1F600 [] [0xFB02] 223 (by decide)
      (by decide) (by decide) (by decide)
  have henc : encode [0x1F600] =
      [⟨0, utf8Len 0x1F600, ScanOutcome.unmappable 0x1F600⟩] := by
    rw [encode, scanFrom_some hnext, scanFrom_none (next_none_iff.mpr rfl)]
  refine ⟨(C5_progress [0x1F600]).2, ?_⟩
  exact (C5_progress [0x1F600]).1 _ (by rw [henc]; exact List.mem_cons_self _ _)
